import Mathlib

/-!
# Verification of the MMA_analysis entity-reconciliation engine

Shallow embedding of `src/scrapes/merge_ufc_props.py` (name normalization,
variant generation, fuzzy best-match selection, token-overlap secondary-market
resolution, and the merge pipeline), together with theorems settling the
frozen claims about the spec.

Modelling conventions:
* Python strings are Lean `String`s; the char-level helpers below
  (`pyLower`, `pyReplace`, `pyStrip`, `splitWS`) model the Python string
  methods `str.lower`, `str.replace`, `str.strip` and `str.split()` on the
  ASCII fragment the data uses (Python's methods additionally handle
  non-ASCII case mappings and exotic Unicode whitespace, which no claim
  touches).
* Python `None` / pandas `NaN` cells are `Option` values.
* numeric line values (Python floats such as 3.5) are `Rat`; no claim
  concerns floating-point rounding.
* the external `thefuzz` scorers are abstract parameters
  `String → String → Nat`; every theorem about matching quantifies over them.
-/

namespace MMA

/-- ASCII case table: `str.lower` restricted to ASCII (the only case mapping
exercised by the repository's data). -/
def lowerTable : List (Char × Char) :=
  [('A', 'a'), ('B', 'b'), ('C', 'c'), ('D', 'd'), ('E', 'e'), ('F', 'f'),
   ('G', 'g'), ('H', 'h'), ('I', 'i'), ('J', 'j'), ('K', 'k'), ('L', 'l'),
   ('M', 'm'), ('N', 'n'), ('O', 'o'), ('P', 'p'), ('Q', 'q'), ('R', 'r'),
   ('S', 's'), ('T', 't'), ('U', 'u'), ('V', 'v'), ('W', 'w'), ('X', 'x'),
   ('Y', 'y'), ('Z', 'z')]

/-- `str.lower` on one character (ASCII fragment). -/
def pyLower (c : Char) : Char :=
  match lowerTable.find? (fun p => p.1 == c) with
  | some p => p.2
  | none => c

/-- One step of `str.replace(old, new)`: scan left to right, replacing each
non-overlapping occurrence of `old`.  `fuel` bounds the recursion; it is
instantiated with the length of the scanned list, which suffices because every
step consumes at least one character (all patterns used are nonempty). -/
def pyReplaceF (old new : List Char) : Nat → List Char → List Char
  | _, [] => []
  | 0, l => l
  | fuel + 1, c :: rest =>
    if old.isPrefixOf (c :: rest) then
      new ++ pyReplaceF old new fuel (List.drop old.length (c :: rest))
    else
      c :: pyReplaceF old new fuel rest

/-- Python `s.replace(old, new)` on char lists. -/
def pyReplace (old new l : List Char) : List Char :=
  pyReplaceF old new l.length l

/-- Python `s.strip()`: drop whitespace from both ends. -/
def pyStrip (l : List Char) : List Char :=
  ((l.dropWhile Char.isWhitespace).reverse.dropWhile Char.isWhitespace).reverse

/-- Split on single whitespace characters, keeping empty chunks (the helper
under Python's `s.split()`). -/
def splitWS (l : List Char) : List (List Char) :=
  l.foldr
    (fun c acc =>
      if c.isWhitespace then [] :: acc
      else
        match acc with
        | [] => [[c]]
        | w :: ws => (c :: w) :: ws)
    [[]]

/-- Python `s.split()` (no arguments): whitespace runs separate words, and no
empty words are produced. -/
def pySplitChars (l : List Char) : List (List Char) :=
  (splitWS l).filter (fun w => !w.isEmpty)

/-- `s.split()` at the `String` level. -/
def pySplit (s : String) : List String :=
  (pySplitChars s.data).map (fun w => ⟨w⟩)

/-- `' '.join(words)` at the char level. -/
def joinChars : List (List Char) → List Char
  | [] => []
  | [w] => w
  | w :: ws => w ++ ' ' :: joinChars ws

/-- `' '.join(words)` at the `String` level. -/
def joinStr (ws : List String) : String :=
  ⟨joinChars (ws.map String.data)⟩

/-- `clean_name` (merge_ufc_props.py lines 20–40) on the char list of a
string: lowercase, then the literal substring removals in source order, then
hyphens to spaces, periods removed, strip, and whitespace-run collapsing via
`' '.join(cleaned.split())`. -/
def cleanChars (l : List Char) : List Char :=
  let s0 := l.map pyLower
  let s1 := pyReplace "jr.".data [] s0
  let s2 := pyReplace "jr".data [] s1
  let s3 := pyReplace "iii".data [] s2
  let s4 := pyReplace "ii".data [] s3
  let s5 := pyReplace "the".data [] s4
  let s6 := pyReplace "-".data " ".data s5
  let s7 := pyReplace ".".data [] s6
  joinChars (pySplitChars (pyStrip s7))

/-- `clean_name(name)` for string input (the non-string branch of the Python
function returns `""` and is modelled by `cleanOpt` below). -/
def clean_name (name : String) : String :=
  ⟨cleanChars name.data⟩

/-- `clean_name` applied to a possibly missing cell: the
`if not isinstance(name, str): return ""` branch. -/
def cleanOpt : Option String → String
  | some s => clean_name s
  | none => ""

/-- The `nickname_map` dict literal of merge_ufc_props.py lines 65–87,
entry for entry in source order.  The source writes duplicate keys
(`'william'`, `'robert'`, `'james'` each appear twice); Python dict literals
keep the LAST binding for a repeated key, which `dictGet` reproduces. -/
def nickname_map : List (String × String) :=
  [("daniel", "dan"), ("dan", "daniel"),
   ("anthony", "tony"), ("tony", "anthony"),
   ("william", "will"), ("will", "william"),
   ("william", "billy"),
   ("robert", "rob"), ("rob", "robert"),
   ("robert", "bobby"),
   ("james", "jim"), ("jim", "james"),
   ("james", "jimmy"),
   ("joseph", "joe"), ("joe", "joseph"),
   ("michael", "mike"), ("mike", "michael"),
   ("christopher", "chris"), ("chris", "christopher"),
   ("jonathan", "jon"), ("jon", "jonathan")]

/-- Lookup in a Python dict literal: the last binding of a repeated key
wins. -/
def dictGet (entries : List (String × String)) (k : String) : Option String :=
  (entries.reverse.find? (fun p => p.1 == k)).map (fun p => p.2)

/-- The `seen`-set loop of merge_ufc_props.py lines 102–108 (and pandas
`drop_duplicates(keep='first')` / `Series.unique()`): keep each element whose
key was not seen before, preserving order.  `seen` is the set of keys already
emitted. -/
def dropDupByGo {α κ : Type} [DecidableEq κ] (key : α → κ) :
    List κ → List α → List α
  | _, [] => []
  | seen, x :: rest =>
    if key x ∈ seen then dropDupByGo key seen rest
    else x :: dropDupByGo key (key x :: seen) rest

/-- Order-preserving first-occurrence deduplication by key. -/
def dropDupBy {α κ : Type} [DecidableEq κ] (key : α → κ) (l : List α) :
    List α :=
  dropDupByGo key [] l

/-- The variants `get_name_variants` (merge_ufc_props.py lines 43–110)
appends after the initial `variants = [cleaned]`: the first-last and
last-only variants of lines 56–62, then the nickname variants of
lines 90–100. -/
def variant_tail (name : String) : List String :=
  let cleaned := clean_name name
  let parts := pySplit cleaned
  let mid :=
    if parts.length ≥ 2 then
      [parts.getD 0 "" ++ " " ++ parts.getLastD ""]
        ++ (if (parts.getLastD "").length > 4 then [parts.getLastD ""] else [])
    else []
  let nick :=
    if parts.length ≥ 1 then
      match dictGet nickname_map (parts.getD 0 "") with
      | some nickname =>
        [joinStr (nickname :: parts.tail)]
          ++ (if parts.length ≥ 2 then [nickname ++ " " ++ parts.getLastD ""]
              else [])
      | none => []
    else []
  mid ++ nick

/-- The insertion-ordered variant list the loop of `get_name_variants` builds
before the duplicate-removal pass: `cleaned` first, then the appended
variants. -/
def raw_variants (name : String) : List String :=
  clean_name name :: variant_tail name

/-- `get_name_variants(name)`: the raw insertion list with later duplicates
dropped (the `seen` loop). -/
def get_name_variants (name : String) : List String :=
  dropDupBy id (raw_variants name)

/-! ## Fuzzy matching (`find_best_match`, lines 113–143)

`thefuzz.process.extractOne(query, choices, scorer)` computes a score for
every choice and returns the pair `(choice, score)` with the highest score,
the earliest choice winning ties (Python's `max` keeps the first maximal
element); `None` for an empty choice list.  The scorer (and thefuzz's
internal preprocessing) is abstract here: an arbitrary total function
`String → String → Nat`, so the `try/except: continue` around the call never
fires in the model. -/
def extractOne (scorer : String → String → Nat) (query : String)
    (choices : List String) : Option (String × Nat) :=
  match choices with
  | [] => none
  | c :: cs =>
    some (cs.foldl
      (fun best x => if scorer query x > best.2 then (x, scorer query x) else best)
      (c, scorer query c))

/-- The body of the inner loop of `find_best_match` (lines 131–138): one
`process.extractOne` call for a (variant, scorer) pair, updating the running
`(best_score, best_match)` accumulator on strict improvement (the
`try/except: continue` never fires because the modelled scorer is total). -/
def fbm_scorer_step (choices_list : List String) (variant : String)
    (acc : Nat × Option String) (scorer : String → String → Nat) :
    Nat × Option String :=
  match extractOne scorer variant choices_list with
  | some m => if m.2 > acc.1 then (m.2, some m.1) else acc
  | none => acc

/-- The inner `for scorer in scorers` loop for one variant. -/
def fbm_inner (scorers : List (String → String → Nat))
    (choices_list : List String) (variant : String)
    (acc : Nat × Option String) : Nat × Option String :=
  scorers.foldl (fbm_scorer_step choices_list variant) acc

/-- The outer `for variant in name_variants` loop, threading the
accumulator. -/
def fbm_scan (scorers : List (String → String → Nat))
    (choices_list : List String) :
    List String → Nat × Option String → Nat × Option String
  | [], acc => acc
  | variant :: rest, acc =>
    fbm_scan scorers choices_list rest (fbm_inner scorers choices_list variant acc)

/-- `find_best_match(name, choices_list, score_cutoff=70)` (lines 113–143):
try every generated variant with every scorer, keep the best score seen
(strictly greater updates only, so the first-encountered maximum wins), and
return the best match only if it is truthy (a nonempty string) and its score
reaches the cutoff.  The accumulator starts at
`(best_score, best_match) = (0, None)`. -/
def find_best_match (scorers : List (String → String → Nat)) (name : String)
    (choices_list : List String) (score_cutoff : Nat) : Option String :=
  if choices_list.length = 0 then none
  else
    let name_variants := get_name_variants name
    let acc := fbm_scan scorers choices_list name_variants
      ((0 : Nat), (none : Option String))
    match acc.2 with
    | some best_match =>
      if best_match ≠ "" ∧ acc.1 ≥ score_cutoff then some best_match else none
    | none => none

/-- The (variant, scorer, candidate) triples of `find_best_match` in exactly
the order the nested loops encounter them, each with its candidate and
score. -/
def allScored (scorers : List (String → String → Nat)) (name : String)
    (choices : List String) : List (String × Nat) :=
  (get_name_variants name).flatMap fun variant =>
    scorers.flatMap fun scorer =>
      choices.map fun c => (c, scorer variant c)

/-! ## Source rows

`DKRow` is a row of the concatenated DraftKings frame (`df_dk`): strikes rows
carry `fighter`, `market_type`, `label`, `line`, `odds`; distance rows carry
`fight`, `market_type`, `label`, `odds` (see scrape_mma_dk.py).  A field a
row's originating frame does not define is `none` (pandas fills `NaN` on
concat), and `label`/`odds` may be missing even on their own frame
(`sel.get(...)`).  `PPRow` is a row of the PrizePicks frame
(scrape_mma_pp.py): `Player`, `Stat`, `Line`, `Start Time`, `Odds Type`. -/
structure DKRow where
  fighter : Option String
  fight : Option String
  market_type : String
  label : Option String
  line : Option Rat
  odds : Option Int
deriving DecidableEq

structure PPRow where
  Player : Option String
  Stat : Option String
  Line : Option Rat
  startTime : Option String
  oddsType : Option String
deriving DecidableEq

/-- `.str.lower()` on a cell (NaN stays NaN, and a NaN label never equals
`"over"`/`"yes"`). -/
def lowerOpt : Option String → Option String
  | some s => some ⟨s.data.map pyLower⟩
  | none => none

/-- `map_distance_odds(fighter_name, distance_df, name_cleaner)`
(lines 146–159): token-overlap scoring.  `fighter_parts` and each row's
`fight_parts` are Python `set`s of the cleaned name's whitespace tokens; the
loop keeps the odds of the first row whose intersection size strictly exceeds
the best so far, starting from `(best_score, found_odds) = (0, None)`.
`name_cleaner` takes the raw cell (possibly missing) exactly as the Python
function receives a possibly-NaN `row['fight']`. -/
def distance_score (fighter_parts : Finset String)
    (name_cleaner : Option String → String) (row : DKRow) : Nat :=
  let fight_parts := (pySplit (name_cleaner row.fight)).toFinset
  (fighter_parts ∩ fight_parts).card

def map_distance_odds (fighter_name : Option String) (distance_df : List DKRow)
    (name_cleaner : Option String → String) : Option Int :=
  let fighter_parts := (pySplit (name_cleaner fighter_name)).toFinset
  (distance_df.foldl
    (fun acc row =>
      if distance_score fighter_parts name_cleaner row > acc.1 then
        (distance_score fighter_parts name_cleaner row, row.odds)
      else acc)
    ((0 : Nat), (none : Option Int))).2

/-! ## The merge pipeline (`merge_ufc_props`, lines 162–358)

The two scrapes are the function's inputs here (`df_strikes`,
`df_distance_data` from DraftKings, `df_pp` from PrizePicks); the
`try/except` fallbacks around them replace a failed PrizePicks scrape by an
empty frame, so the empty-`df_pp` early return models both empty-data exits
(lines 180–186 and 221–227).  Debug printing has no data effect and is not
modelled.  pandas' `sort_values` uses an unstable quicksort, so the relative
order of sort-key ties is unspecified in the source; the model picks the
stable merge-sort outcome, and no claim depends on tie order. -/

/-- The output schema of lines 182–186 / 223–227 / 331–335. -/
def output_columns : List String :=
  ["fighter", "PP Line", "DK Line", "Difference (PP−DK)",
   "Best Bet (DK)", "Going Distance", "Actual", "Between Lines",
   "PP Bet Correct", "DK Bet Correct"]

/-- `df_dk = pd.concat([df_strikes, df_distance_data])` (line 192). -/
def df_dk (df_strikes df_distance_data : List DKRow) : List DKRow :=
  df_strikes ++ df_distance_data

/-- The raw cell behind `df_dk.get("fighter", df_dk.get("fight", ""))`
(line 196): a column-level lookup — the `fighter` column exists on the concat
iff the strikes frame is nonempty (a pandas frame built from an empty row
list has no columns), else fall back to the `fight` column, else the scalar
`""`. -/
def dk_fighter_cell (df_strikes df_distance_data : List DKRow) (row : DKRow) :
    Option String :=
  if df_strikes ≠ [] then row.fighter
  else if df_distance_data ≠ [] then row.fight
  else some ""

/-- The `fighter_clean` column of `df_dk` (line 196). -/
def dk_fighter_clean (df_strikes df_distance_data : List DKRow) (row : DKRow) :
    String :=
  cleanOpt (dk_fighter_cell df_strikes df_distance_data row)

/-- Lines 200–203: significant-strikes rows labelled "over". -/
def df_dk_filtered (df_strikes df_distance_data : List DKRow) : List DKRow :=
  (df_dk df_strikes df_distance_data).filter fun r =>
    r.market_type == "Significant Strikes O/U" && lowerOpt r.label == some "over"

/-- Line 208: `df_dk_filtered['fighter_clean'].drop_duplicates().tolist()`. -/
def ordered_dk_fighters (df_strikes df_distance_data : List DKRow) :
    List String :=
  dropDupBy id ((df_dk_filtered df_strikes df_distance_data).map
    (dk_fighter_clean df_strikes df_distance_data))

/-- Lines 211–217: going-the-distance rows labelled "yes", deduplicated by the
`fight` cell (pandas treats NaN keys as equal duplicates, hence the key is the
`Option`-valued cell). -/
def df_distance_yes (df_strikes df_distance_data : List DKRow) : List DKRow :=
  dropDupBy (fun r => r.fight)
    ((df_dk df_strikes df_distance_data).filter fun r =>
      r.market_type == "Fight to Go the Distance" && lowerOpt r.label == some "yes")

/-- Line 230: `df_dk_filtered['fighter_clean'].unique()` — the same
first-appearance-ordered distinct list as `ordered_dk_fighters`. -/
def dk_name_choices (df_strikes df_distance_data : List DKRow) : List String :=
  dropDupBy id ((df_dk_filtered df_strikes df_distance_data).map
    (dk_fighter_clean df_strikes df_distance_data))

/-- A row of `merged` after the left join (lines 268–288): the PrizePicks
row, its `fighter_clean` (suffixed `_x` by the merge because both frames
carry a `fighter_clean` column), its `dk_match_name`, and the joined
DraftKings row if any (`none` = the right-hand columns are NaN-filled). -/
structure MergedRow where
  pp : PPRow
  fighter_clean_x : String
  dk_match_name : Option String
  dk : Option DKRow
deriving DecidableEq

/-- The rows the left merge (lines 268–274) produces for one PrizePicks row:
every `df_dk_filtered` row whose `fighter_clean` equals the row's
`dk_match_name` (lines 238–241), in frame order; one NaN-filled row when the
key is null or unmatched. -/
def join_rows (scorers : List (String → String → Nat))
    (df_strikes df_distance_data : List DKRow) (p : PPRow) : List MergedRow :=
  let pp_clean := cleanOpt p.Player
  let mtch := find_best_match scorers pp_clean
    (dk_name_choices df_strikes df_distance_data) 70
  let hits :=
    match mtch with
    | some k =>
      (df_dk_filtered df_strikes df_distance_data).filter fun d =>
        dk_fighter_clean df_strikes df_distance_data d == k
    | none => []
  if hits.isEmpty then [⟨p, pp_clean, mtch, none⟩]
  else hits.map fun d => ⟨p, pp_clean, mtch, some d⟩

/-- `merged` directly after the left join and rename (lines 268–284). -/
def joined (scorers : List (String → String → Nat))
    (df_strikes df_distance_data : List DKRow) (df_pp : List PPRow) :
    List MergedRow :=
  df_pp.flatMap (join_rows scorers df_strikes df_distance_data)

/-- Line 287: `merged.drop_duplicates(subset=['fighter_clean_x'])`. -/
def merged_dedup (scorers : List (String → String → Nat))
    (df_strikes df_distance_data : List DKRow) (df_pp : List PPRow) :
    List MergedRow :=
  dropDupBy (fun r => r.fighter_clean_x)
    (joined scorers df_strikes df_distance_data df_pp)

/-- The `fighter_clean_y` column (the right-hand frame's `fighter_clean`;
NaN on unmatched rows). -/
def fighter_clean_y (df_strikes df_distance_data : List DKRow)
    (r : MergedRow) : Option String :=
  r.dk.map (dk_fighter_clean df_strikes df_distance_data)

/-- The categorical sort key of lines 317–323: position of `fighter_clean_y`
in `ordered_dk_fighters`; NaN and out-of-category values sort last. -/
def sort_key (df_strikes df_distance_data : List DKRow) (r : MergedRow) :
    Nat :=
  let ordered := ordered_dk_fighters df_strikes df_distance_data
  match fighter_clean_y df_strikes df_distance_data r with
  | some v =>
    match ordered.indexOf? v with
    | some i => i
    | none => ordered.length
  | none => ordered.length

/-- Lines 316–328: re-sort by the original DraftKings fighter order. -/
def sorted_merged (scorers : List (String → String → Nat))
    (df_strikes df_distance_data : List DKRow) (df_pp : List PPRow) :
    List MergedRow :=
  (merged_dedup scorers df_strikes df_distance_data df_pp).mergeSort
    fun a b =>
      decide (sort_key df_strikes df_distance_data a ≤
        sort_key df_strikes df_distance_data b)

/-- A row of the final 10-column relation (lines 331–336). -/
structure OutRow where
  fighter : Option String
  ppLine : Option Rat
  dkLine : Option Rat
  difference : Option Rat
  bestBet : String
  goingDistance : Option Int
  actual : String
  betweenLines : String
  ppBetCorrect : String
  dkBetCorrect : String
deriving DecidableEq

/-- Line 294–296: `"over" if pd.notna(x) and x > 0 else "under" if
pd.notna(x) else ""`. -/
def bestBetOf : Option Rat → String
  | some d => if d > 0 then "over" else "under"
  | none => ""

/-- The derived columns of lines 291–314 for one merged row (each is a
per-row computation, so evaluating them after the sort is the identical
relation). -/
def mk_out_row (df_strikes df_distance_data : List DKRow) (r : MergedRow) :
    OutRow :=
  let ppLine := r.pp.Line
  let dkLine := r.dk.bind fun d => d.line
  let diff :=
    match ppLine, dkLine with
    | some a, some b => some (a - b)
    | _, _ => none
  { fighter := r.pp.Player
    ppLine := ppLine
    dkLine := dkLine
    difference := diff
    bestBet := bestBetOf diff
    goingDistance := map_distance_odds r.pp.Player
      (df_distance_yes df_strikes df_distance_data) cleanOpt
    actual := ""
    betweenLines := ""
    ppBetCorrect := ""
    dkBetCorrect := "" }

/-- Lines 291–354 applied after the dedup: derived columns, sort, column
selection and the final `DK Line`-present filter (line 353). -/
def final_rows (scorers : List (String → String → Nat))
    (df_strikes df_distance_data : List DKRow) (df_pp : List PPRow) :
    List OutRow :=
  ((sorted_merged scorers df_strikes df_distance_data df_pp).map
    (mk_out_row df_strikes df_distance_data)).filter fun r => r.dkLine.isSome

/-- An output relation: its ordered column names and its rows. -/
structure OutFrame where
  columns : List String
  rows : List OutRow
deriving DecidableEq

/-- `merge_ufc_props()` as a function of the scraped inputs: the empty-`df_pp`
early return of lines 180–186 / 221–227, else the full match-join-dedup
pipeline.  Total — every data-quality issue is an `Option`, never an
exception. -/
def merge_ufc_props (scorers : List (String → String → Nat))
    (df_strikes df_distance_data : List DKRow) (df_pp : List PPRow) :
    OutFrame :=
  if df_pp.isEmpty then ⟨output_columns, []⟩
  else ⟨output_columns, final_rows scorers df_strikes df_distance_data df_pp⟩

/-- A distance row whose odds cell is absent (`sel.get("displayOdds",
{}).get("american")` can be `None` in scrape_mma_dk.py). -/
def c8row : DKRow :=
  ⟨none, some "Jon Jones vs Stipe Miocic", "Fight to Go the Distance",
   some "Yes", none, none⟩

/-- `in`-style substring test (Python `pat in s`), used to state on which
inputs `clean_name` is idempotent. -/
def containsSub (s pat : String) : Bool :=
  s.data.tails.any (fun t => pat.data.isPrefixOf t)

/-- The amended claim's wording as an independent definition: lowercase,
remove the literal substrings `"jr."`, `"jr"`, `"iii"`, `"ii"`, `"the"` in
source order, turn each hyphen into a space (a `map`), DELETE each period (a
`filter` — not a replacement by a space), strip, and collapse whitespace runs
to single spaces. -/
def clean_name_spec (name : String) : String :=
  let s0 := name.data.map pyLower
  let s1 := pyReplace "jr.".data [] s0
  let s2 := pyReplace "jr".data [] s1
  let s3 := pyReplace "iii".data [] s2
  let s4 := pyReplace "ii".data [] s3
  let s5 := pyReplace "the".data [] s4
  let s6 := s5.map (fun x => if x == '-' then ' ' else x)
  let s7 := s6.filter (fun x => !(x == '.'))
  ⟨joinChars (pySplitChars (pyStrip s7))⟩

/-! ## Lemmas about first-occurrence deduplication -/

theorem dropDupByGo_sublist {α κ : Type} [DecidableEq κ] (key : α → κ) :
    ∀ (l : List α) (seen : List κ), (dropDupByGo key seen l).Sublist l := by
  intro l
  induction l with
  | nil => intro seen; simp [dropDupByGo]
  | cons x rest ih =>
    intro seen
    by_cases h : key x ∈ seen
    · simp only [dropDupByGo, if_pos h]
      exact (ih seen).cons x
    · simp only [dropDupByGo, if_neg h]
      exact (ih (key x :: seen)).cons₂ x

theorem mem_dropDupByGo {α κ : Type} [DecidableEq κ] (key : α → κ) :
    ∀ (l : List α) (seen : List κ) (x : α),
      x ∈ dropDupByGo key seen l → x ∈ l ∧ key x ∉ seen := by
  intro l
  induction l with
  | nil => intro seen x h; simp [dropDupByGo] at h
  | cons a rest ih =>
    intro seen x h
    by_cases ha : key a ∈ seen
    · simp only [dropDupByGo, if_pos ha] at h
      have := ih seen x h
      exact ⟨List.mem_cons_of_mem a this.1, this.2⟩
    · simp only [dropDupByGo, if_neg ha] at h
      rcases List.mem_cons.mp h with h | h
      · exact ⟨by simp [h], by simpa [h] using ha⟩
      · have := ih (key a :: seen) x h
        refine ⟨List.mem_cons_of_mem a this.1, fun hx => this.2 ?_⟩
        exact List.mem_cons_of_mem _ hx

theorem dropDupByGo_pairwise {α κ : Type} [DecidableEq κ] (key : α → κ) :
    ∀ (l : List α) (seen : List κ),
      (dropDupByGo key seen l).Pairwise fun a b => key a ≠ key b := by
  intro l
  induction l with
  | nil => intro seen; simp [dropDupByGo]
  | cons a rest ih =>
    intro seen
    by_cases ha : key a ∈ seen
    · simpa only [dropDupByGo, if_pos ha] using ih seen
    · simp only [dropDupByGo, if_neg ha]
      refine List.Pairwise.cons ?_ (ih (key a :: seen))
      intro b hb hkey
      have := (mem_dropDupByGo key rest (key a :: seen) b hb).2
      exact this (by simp [hkey])

/-- Each survivor of the dedup is the first occurrence of its key in the
input list. -/
theorem dropDupByGo_first {α κ : Type} [DecidableEq κ] (key : α → κ) :
    ∀ (l : List α) (seen : List κ) (x : α), x ∈ dropDupByGo key seen l →
      (l.filter fun a => decide (key a = key x)).head? = some x := by
  intro l
  induction l with
  | nil => intro seen x h; simp [dropDupByGo] at h
  | cons a rest ih =>
    intro seen x h
    by_cases ha : key a ∈ seen
    · simp only [dropDupByGo, if_pos ha] at h
      have hx := mem_dropDupByGo key rest seen x h
      have hne : key a ≠ key x := fun hk => hx.2 (hk ▸ ha)
      simpa [List.filter_cons, hne] using ih seen x h
    · simp only [dropDupByGo, if_neg ha] at h
      rcases List.mem_cons.mp h with h | h
      · subst h
        simp [List.filter_cons]
      · have hx := mem_dropDupByGo key rest (key a :: seen) x h
        have hne : key a ≠ key x := by
          intro hk
          exact hx.2 (by simp [hk])
        simpa [List.filter_cons, hne] using ih (key a :: seen) x h

/-- Every key present in the input is still present after the dedup. -/
theorem exists_mem_dropDupByGo {α κ : Type} [DecidableEq κ] (key : α → κ) :
    ∀ (l : List α) (seen : List κ) (a : α), a ∈ l → key a ∉ seen →
      ∃ r ∈ dropDupByGo key seen l, key r = key a := by
  intro l
  induction l with
  | nil => intro seen a h _; simp at h
  | cons x rest ih =>
    intro seen a ha hseen
    rcases List.mem_cons.mp ha with ha | ha
    · subst ha
      have hx : key a ∉ seen := hseen
      simp only [dropDupByGo, if_neg hx]
      exact ⟨a, by simp, rfl⟩
    · by_cases hx : key x ∈ seen
      · simp only [dropDupByGo, if_pos hx]
        exact ih seen a ha hseen
      · simp only [dropDupByGo, if_neg hx]
        by_cases hk : key a = key x
        · exact ⟨x, by simp, hk.symm⟩
        · rcases ih (key x :: seen) a ha (by simp [hseen, hk]) with ⟨r, hr, hkr⟩
          exact ⟨r, by simp [hr], hkr⟩

theorem dropDupBy_pairwise {α κ : Type} [DecidableEq κ] (key : α → κ)
    (l : List α) : (dropDupBy key l).Pairwise fun a b => key a ≠ key b :=
  dropDupByGo_pairwise key l []

theorem dropDupBy_first {α κ : Type} [DecidableEq κ] (key : α → κ)
    (l : List α) (x : α) (h : x ∈ dropDupBy key l) :
    (l.filter fun a => decide (key a = key x)).head? = some x :=
  dropDupByGo_first key l [] x h

theorem exists_mem_dropDupBy {α κ : Type} [DecidableEq κ] (key : α → κ)
    (l : List α) (a : α) (ha : a ∈ l) :
    ∃ r ∈ dropDupBy key l, key r = key a :=
  exists_mem_dropDupByGo key l [] a ha (by simp)

theorem dropDupBy_sublist {α κ : Type} [DecidableEq κ] (key : α → κ)
    (l : List α) : (dropDupBy key l).Sublist l :=
  dropDupByGo_sublist key l []

/-! ## Claim C7: empty source B -/

/-- C7: when the PrizePicks relation is empty, `merge_ufc_props` returns an
empty relation whose column list is exactly the full 10-column output schema
(fighter, PP Line, DK Line, Difference (PP−DK), Best Bet (DK), Going
Distance, Actual, Between Lines, PP Bet Correct, DK Bet Correct), for every
scorer list and every pair of DraftKings inputs.  The model is a total
function, so this path raises nothing. -/
theorem C7_empty_pp_schema (scorers : List (String → String → Nat))
    (df_strikes df_distance_data : List DKRow) :
    merge_ufc_props scorers df_strikes df_distance_data [] =
      ⟨["fighter", "PP Line", "DK Line", "Difference (PP−DK)",
        "Best Bet (DK)", "Going Distance", "Actual", "Between Lines",
        "PP Bet Correct", "DK Bet Correct"], []⟩ := rfl

/-! ## Claim C1: `clean_name` is NOT idempotent (counterexample), but is
idempotent on inputs whose cleaned form avoids the removable substrings. -/

/-- C1 counterexample: `clean_name` is not idempotent.  On `"t.he"` the
period is deleted first (`"t.he" → "the"`), and a second application removes
the substring `"the"`, giving `""`. -/
theorem C1_not_idempotent_cex :
    clean_name (clean_name "t.he") ≠ clean_name "t.he"
    ∧ clean_name "t.he" = "the" ∧ clean_name "the" = "" := by decide

/-! ## Claim C2 counterexample: periods are deleted, not turned into
spaces. -/

/-- C2 counterexample: the code runs `.replace(".", "")`, so a period between
two letters does NOT produce a token boundary: `clean_name "a.b"` is the
single token `"ab"`, not `"a b"`. -/
theorem C2_period_deleted_cex :
    clean_name "a.b" = "ab" ∧ clean_name "a.b" ≠ "a b"
    ∧ pySplit (clean_name "a.b") = ["ab"] := by decide

/-! ## Claim C3 counterexample: the nickname dict is NOT bidirectional for
william/robert/james. -/

/-- C3 counterexample: `"william smith"` is a normalized name whose first
token is `"william"`, but its variant list is exactly
`["william smith", "smith", "billy smith"]`: a `"billy"` variant appears and
no variant has first token `"will"` (the dict literal's later binding
`'william': 'billy'` overwrites `'william': 'will'`). -/
theorem C3_william_no_will_cex :
    pySplit (clean_name "william smith") = ["william", "smith"]
    ∧ get_name_variants "william smith" = ["william smith", "smith", "billy smith"]
    ∧ ∀ v ∈ get_name_variants "william smith", (pySplit v).head? ≠ some "will" := by
  decide

/-! ## Claim C4: the head of the variant list -/

/-- C4 counterexample: `"the"` is in the image of `clean_name`
(`clean_name "t.he" = "the"`), yet `get_name_variants "the" = [""]`, whose
first element is not the input string. -/
theorem C4_head_not_input_cex :
    clean_name "t.he" = "the" ∧ get_name_variants "the" = [""]
    ∧ (get_name_variants "the").head? ≠ some "the" := by decide

/-- C4 amended: for every string, the first element of `get_name_variants`
is `clean_name` of the input (hence the input itself exactly when the input
is a fixed point of `clean_name`), and the returned list is duplicate-free
and is an order-preserving sublist of the raw insertion order (later
duplicate insertions are dropped, never reordered). -/
theorem C4_variants_head_nodup_order (s : String) :
    (get_name_variants s).head? = some (clean_name s)
    ∧ (get_name_variants s).Nodup
    ∧ (get_name_variants s).Sublist (raw_variants s) := by
  refine ⟨?_, ?_, dropDupBy_sublist id (raw_variants s)⟩
  · rw [get_name_variants, raw_variants, dropDupBy, dropDupByGo]
    simp
  · have := dropDupBy_pairwise id (raw_variants s)
    simpa [List.Nodup] using this

/-! ## First-maximum folds

The scanning loops of `find_best_match` and `map_distance_odds` both keep a
running best score and update it only on strict improvement, so the element
they land on is the first one (in scan order) attaining the maximum. -/

theorem foldl_max_le_start (score : α → Nat) :
    ∀ (l : List α) (a : Nat), a ≤ l.foldl (fun m r => max m (score r)) a := by
  intro l
  induction l with
  | nil => intro a; simp
  | cons x rest ih =>
    intro a
    calc a ≤ max a (score x) := Nat.le_max_left _ _
    _ ≤ rest.foldl (fun m r => max m (score r)) (max a (score x)) := ih _

theorem foldl_max_attained (score : α → Nat) :
    ∀ (l : List α) (a : Nat),
      l.foldl (fun m r => max m (score r)) a = a
      ∨ ∃ r ∈ l, score r = l.foldl (fun m r => max m (score r)) a := by
  intro l
  induction l with
  | nil => intro a; simp
  | cons x rest ih =>
    intro a
    rcases ih (max a (score x)) with h | ⟨r, hr, hsc⟩
    · simp only [List.foldl_cons, h]
      rcases Nat.le_total (score x) a with hxa | hax
      · left; exact Nat.max_eq_left hxa
      · right
        exact ⟨x, by simp, (Nat.max_eq_right hax).symm⟩
    · right
      exact ⟨r, by simp [hr], by simpa using hsc⟩

theorem mem_le_foldl_max (score : α → Nat) :
    ∀ (l : List α) (a : Nat) (r : α), r ∈ l →
      score r ≤ l.foldl (fun m s => max m (score s)) a := by
  intro l
  induction l with
  | nil => intro a r h; simp at h
  | cons x rest ih =>
    intro a r hr
    rcases List.mem_cons.mp hr with h | h
    · subst h
      calc score r ≤ max a (score r) := Nat.le_max_right _ _
      _ ≤ _ := foldl_max_le_start score rest _
    · exact ih _ r h

/-- A "keep on strict improvement" fold lands on the first element attaining
the maximum score, or keeps its accumulator when nothing beats it. -/
theorem foldl_keep_first_max {α β : Type} (score : α → Nat) (out : α → β) :
    ∀ (l : List α) (acc : Nat × β),
      l.foldl (fun a r => if score r > a.1 then (score r, out r) else a) acc =
        (let M := l.foldl (fun m r => max m (score r)) acc.1
         if M ≤ acc.1 then acc
         else ((l.filter fun r => decide (score r = M)).head?).elim acc
           (fun r => (M, out r))) := by
  intro l
  induction l with
  | nil => intro acc; simp
  | cons x rest ih =>
    intro acc
    simp only [List.foldl_cons]
    by_cases hx : score x > acc.1
    · rw [if_pos hx, ih (score x, out x)]
      have hstart : max acc.1 (score x) = score x := Nat.max_eq_right (Nat.le_of_lt hx)
      simp only [hstart]
      set M := rest.foldl (fun m r => max m (score r)) (score x) with hM
      by_cases hMx : M ≤ score x
      · have hMeq : M = score x := Nat.le_antisymm hMx (foldl_max_le_start score rest _)
        rw [if_pos hMx, if_neg (show ¬ M ≤ acc.1 by omega)]
        have hfe : (List.filter (fun r => decide (score r = M)) (x :: rest)).head? =
            some x := by
          simp [List.filter_cons, hMeq]
        rw [hfe]
        simp [hMeq]
      · have hMgt : score x < M := Nat.lt_of_not_le hMx
        rw [if_neg hMx, if_neg (show ¬ M ≤ acc.1 by omega)]
        have hxM : ¬ (score x = M) := by omega
        have hff : List.filter (fun r => decide (score r = M)) (x :: rest) =
            List.filter (fun r => decide (score r = M)) rest := by
          simp [List.filter_cons, hxM]
        rw [hff]
        rcases foldl_max_attained score rest (score x) with h | ⟨r, hr, hsc⟩
        · exfalso; rw [← hM] at h; omega
        · have hscM : score r = M := by rw [hM]; exact hsc
          have hmem : r ∈ List.filter (fun s => decide (score s = M)) rest :=
            List.mem_filter.mpr ⟨hr, by simp [hscM]⟩
          cases hhead : (List.filter (fun s => decide (score s = M)) rest).head? with
          | none =>
            rw [List.head?_eq_none_iff] at hhead
            rw [hhead] at hmem
            simp at hmem
          | some p => simp
    · rw [if_neg hx]
      have hle : score x ≤ acc.1 := Nat.le_of_not_lt hx
      have hstart : max acc.1 (score x) = acc.1 := Nat.max_eq_left hle
      rw [ih acc]
      simp only [hstart]
      set M := rest.foldl (fun m r => max m (score r)) acc.1 with hM
      by_cases hMa : M ≤ acc.1
      · rw [if_pos hMa, if_pos hMa]
      · rw [if_neg hMa, if_neg hMa]
        have hxM : ¬ (score x = M) := by omega
        have hff : List.filter (fun r => decide (score r = M)) (x :: rest) =
            List.filter (fun r => decide (score r = M)) rest := by
          simp [List.filter_cons, hxM]
        rw [hff]

/-- Folding a function over a `flatMap` is the nested fold. -/
theorem foldl_flatMap {β γ : Type} (g : α → List β) (f : γ → β → γ) :
    ∀ (l : List α) (init : γ),
      (l.flatMap g).foldl f init = l.foldl (fun a x => (g x).foldl f a) init := by
  intro l
  induction l with
  | nil => intro init; simp
  | cons x rest ih =>
    intro init
    simp [List.flatMap_cons, List.foldl_append, ih]

/-- The `extractOne`-then-compare step of `find_best_match` equals scanning
all (candidate, score) pairs of the choice list with the strict-improvement
fold. -/
theorem extract_fold_bridge (scorer : String → String → Nat) (q : String) :
    ∀ (cs : List String) (b : String × Nat) (acc : Nat × Option String),
      (let m := cs.foldl
        (fun best x => if scorer q x > best.2 then (x, scorer q x) else best) b
       if m.2 > acc.1 then (m.2, some m.1) else acc) =
      (cs.map fun c => (c, scorer q c)).foldl
        (fun a p => if p.2 > a.1 then (p.2, some p.1) else a)
        (if b.2 > acc.1 then (b.2, some b.1) else acc) := by
  intro cs
  induction cs with
  | nil => intro b acc; rfl
  | cons x rest ih =>
    intro b acc
    simp only [List.foldl_cons, List.map_cons]
    rw [ih (if scorer q x > b.2 then (x, scorer q x) else b) acc]
    congr 1
    by_cases h1 : scorer q x > b.2 <;> by_cases h2 : b.2 > acc.1 <;>
      by_cases h3 : scorer q x > acc.1 <;>
      simp only [if_pos, if_neg, h1, h2, h3, if_true, if_false] <;>
      first
        | rfl
        | omega

theorem fbm_scorer_step_eq (choices : List String) (variant : String)
    (acc : Nat × Option String) (scorer : String → String → Nat) :
    fbm_scorer_step choices variant acc scorer =
    (choices.map fun c => (c, scorer variant c)).foldl
      (fun a p => if p.2 > a.1 then (p.2, some p.1) else a) acc := by
  cases choices with
  | nil => rfl
  | cons c cs =>
    have := extract_fold_bridge scorer variant cs (c, scorer variant c) acc
    simp only [fbm_scorer_step, extractOne] at this ⊢
    rw [this]
    simp only [List.map_cons, List.foldl_cons]

theorem fbm_inner_eq (scorers : List (String → String → Nat))
    (choices : List String) (variant : String) (acc : Nat × Option String) :
    fbm_inner scorers choices variant acc =
    (scorers.flatMap fun sc => choices.map fun c => (c, sc variant c)).foldl
      (fun a p => if p.2 > a.1 then (p.2, some p.1) else a) acc := by
  have hstep : fbm_scorer_step choices variant =
      fun a sc => (choices.map fun c => (c, sc variant c)).foldl
        (fun a p => if p.2 > a.1 then (p.2, some p.1) else a) a := by
    funext a sc
    exact fbm_scorer_step_eq choices variant a sc
  rw [fbm_inner, hstep, foldl_flatMap]

theorem fbm_scan_eq (scorers : List (String → String → Nat))
    (choices : List String) :
    ∀ (variants : List String) (acc : Nat × Option String),
      fbm_scan scorers choices variants acc =
      (variants.flatMap fun v =>
          scorers.flatMap fun sc => choices.map fun c => (c, sc v c)).foldl
        (fun a p => if p.2 > a.1 then (p.2, some p.1) else a) acc := by
  intro variants
  induction variants with
  | nil => intro acc; simp [fbm_scan]
  | cons v vs ih =>
    intro acc
    rw [fbm_scan, ih, fbm_inner_eq]
    simp [List.flatMap_cons, List.foldl_append]

/-- `foldl_keep_first_max` specialized to the matcher's scan from the initial
accumulator `(0, None)`. -/
theorem foldl_keep_first_max_zero (l : List (String × Nat)) :
    l.foldl (fun a p => if p.2 > a.1 then (p.2, some p.1) else a)
      ((0 : Nat), (none : Option String)) =
      (let M := l.foldl (fun m p => max m p.2) 0
       if M = 0 then ((0 : Nat), (none : Option String))
       else ((l.filter fun p => decide (p.2 = M)).head?).elim (0, none)
         (fun p => (M, some p.1))) := by
  have h := foldl_keep_first_max (fun p : String × Nat => p.2)
    (fun p : String × Nat => some p.1) l ((0 : Nat), (none : Option String))
  simp only [Nat.le_zero] at h
  exact h

/-- `foldl_max_attained` specialized likewise. -/
theorem foldl_max_attained_pairs (l : List (String × Nat)) :
    l.foldl (fun m p => max m p.2) 0 = 0
    ∨ ∃ r ∈ l, r.2 = l.foldl (fun m p => max m p.2) 0 :=
  foldl_max_attained (fun p : String × Nat => p.2) l 0

theorem flatMap_const_nil {α β : Type} (l : List α) :
    (l.flatMap fun _ => ([] : List β)) = [] := by
  induction l with
  | nil => rfl
  | cons x rest ih => rw [List.flatMap_cons, ih]; rfl

theorem allScored_nil_choices (scorers : List (String → String → Nat))
    (name : String) : allScored scorers name [] = [] := by
  rw [allScored]
  simp only [List.map_nil, flatMap_const_nil]

theorem mem_of_head?_eq {α : Type} {l : List α} {a : α}
    (h : l.head? = some a) : a ∈ l := by
  cases l with
  | nil => simp at h
  | cons x t =>
    simp only [List.head?_cons, Option.some.injEq] at h
    simp [← h]

/-- Every triple in `allScored` carries a candidate from the pool. -/
theorem mem_allScored_fst (scorers : List (String → String → Nat))
    (name : String) (choices : List String) (p : String × Nat)
    (hp : p ∈ allScored scorers name choices) : p.1 ∈ choices := by
  simp only [allScored, List.mem_flatMap, List.mem_map] at hp
  rcases hp with ⟨v, -, sc, -, c, hc, rfl⟩
  exact hc

/-- Characterization of `find_best_match`: scanning the (variant, scorer,
candidate) triples in `allScored` order with a strict-improvement fold means
the outcome is decided by the FIRST triple attaining the maximal score; a
maximal score of 0 leaves `best_match = None`. -/
theorem find_best_match_char (scorers : List (String → String → Nat))
    (name : String) (choices : List String) (cutoff : Nat) :
    find_best_match scorers name choices cutoff =
      (let ts := allScored scorers name choices
       let M := ts.foldl (fun m p => max m p.2) 0
       if M = 0 then none
       else ((ts.filter fun p : String × Nat => decide (p.2 = M)).head?).elim none
         (fun p => if p.1 ≠ "" ∧ M ≥ cutoff then some p.1 else none)) := by
  by_cases hc : choices.length = 0
  · have hnil : choices = [] := List.length_eq_zero.mp hc
    subst hnil
    simp [find_best_match, allScored_nil_choices]
  · rw [find_best_match, if_neg hc]
    have hscan := fbm_scan_eq scorers choices (get_name_variants name)
      ((0 : Nat), (none : Option String))
    have hts : ((get_name_variants name).flatMap fun v =>
        scorers.flatMap fun sc => choices.map fun c => (c, sc v c)) =
        allScored scorers name choices := rfl
    rw [hts] at hscan
    simp only [hscan, foldl_keep_first_max_zero]
    set ts := allScored scorers name choices with hts2
    set M := ts.foldl (fun m p => max m p.2) 0 with hM
    by_cases hM0 : M = 0
    · rw [if_pos hM0, if_pos hM0]
    · rw [if_neg hM0, if_neg hM0]
      rcases foldl_max_attained_pairs ts with h | ⟨r, hr, hsc⟩
      · exact absurd (hM ▸ h) hM0
      · have hscM : r.2 = M := by rw [hM]; exact hsc
        have hmem : r ∈ ts.filter fun p => decide (p.2 = M) :=
          List.mem_filter.mpr ⟨hr, by simp [hscM]⟩
        cases hhead : (ts.filter fun p => decide (p.2 = M)).head? with
        | none =>
          rw [List.head?_eq_none_iff] at hhead
          rw [hhead] at hmem
          simp at hmem
        | some p => rfl

/-! ## Claim C5: determinism and first-encountered tie-breaking -/

/-- C5: `find_best_match` is a pure function of (scorers, name, pool, cutoff)
— identical inputs give the identical result — and when several (variant,
scorer, candidate) triples attain the maximal score, the result is decided by
the first-encountered triple in variant order, then scorer order, then pool
order: `allScored` lists every triple's (candidate, score) in exactly that
nesting order, and the returned candidate is the head of the maximal-score
triples (then subjected to the truthiness/cutoff guard; a maximal score of 0
means no candidate was ever recorded). -/
theorem C5_first_encountered_max (scorers : List (String → String → Nat))
    (name : String) (choices : List String) (cutoff : Nat) :
    find_best_match scorers name choices cutoff =
      (let ts := allScored scorers name choices
       let M := ts.foldl (fun m p => max m p.2) 0
       if M = 0 then none
       else ((ts.filter fun p : String × Nat => decide (p.2 = M)).head?).elim none
         (fun p => if p.1 ≠ "" ∧ M ≥ cutoff then some p.1 else none)) :=
  find_best_match_char scorers name choices cutoff

/-! ## Claim C9: the result comes from the pool -/

/-- C9: whenever `find_best_match` returns a candidate, that candidate is an
element of the supplied pool, for every scorer list, name and cutoff. -/
theorem C9_result_mem_pool (scorers : List (String → String → Nat))
    (name : String) (choices : List String) (cutoff : Nat) (r : String)
    (h : find_best_match scorers name choices cutoff = some r) :
    r ∈ choices := by
  rw [find_best_match_char] at h
  simp only at h
  set ts := allScored scorers name choices with hts
  set M := ts.foldl (fun m p => max m p.2) 0 with hM
  by_cases hM0 : M = 0
  · rw [if_pos hM0] at h
    exact absurd h (by simp)
  · rw [if_neg hM0] at h
    cases hhead : (ts.filter fun p => decide (p.2 = M)).head? with
    | none => rw [hhead] at h; exact absurd h (by simp)
    | some p =>
      rw [hhead] at h
      have hp : p ∈ ts.filter fun p => decide (p.2 = M) := mem_of_head?_eq hhead
      have hpts : p ∈ ts := List.mem_of_mem_filter hp
      by_cases hg : p.1 ≠ "" ∧ M ≥ cutoff
      · rw [Option.elim, if_pos hg] at h
        have : p.1 = r := by simpa using h
        exact this ▸ mem_allScored_fst scorers name choices p hpts
      · rw [Option.elim, if_neg hg] at h
        exact absurd h (by simp)

/-- C9 witness: with a constant scorer, `"jon jones"` matched against the
pool `["jon jones"]` is found, and the theorem puts it in the pool. -/
theorem C9_witness : ("jon jones" : String) ∈ ["jon jones"] :=
  C9_result_mem_pool [fun _ _ => 100] "jon jones" ["jon jones"] 70 "jon jones"
    (by decide)

/-! ## Claim C10: the empty string is never returned -/

/-- C10: `find_best_match` never returns the empty string: the final guard
`if best_match and best_score >= score_cutoff` tests the candidate's
truthiness, so a best candidate `""` yields `None` even when its score meets
the cutoff. -/
theorem C10_no_empty_string (scorers : List (String → String → Nat))
    (name : String) (choices : List String) (cutoff : Nat) (c : String)
    (h : find_best_match scorers name choices cutoff = some c) :
    c ≠ "" := by
  rw [find_best_match_char] at h
  simp only at h
  set ts := allScored scorers name choices with hts
  set M := ts.foldl (fun m p => max m p.2) 0 with hM
  by_cases hM0 : M = 0
  · rw [if_pos hM0] at h
    exact absurd h (by simp)
  · rw [if_neg hM0] at h
    cases hhead : (ts.filter fun p => decide (p.2 = M)).head? with
    | none => rw [hhead] at h; exact absurd h (by simp)
    | some p =>
      rw [hhead] at h
      by_cases hg : p.1 ≠ "" ∧ M ≥ cutoff
      · rw [Option.elim, if_pos hg] at h
        have : p.1 = c := by simpa using h
        exact this ▸ hg.1
      · rw [Option.elim, if_neg hg] at h
        exact absurd h (by simp)

/-- C10 witness: with the candidate pool `[""]` and a constant score of 100
(well above the cutoff 0), the function returns `None` — the truthiness
guard, not the score, rejects it — while a successful concrete match is
nonempty by the theorem. -/
theorem C10_witness :
    find_best_match [fun _ _ => 100] "x" [""] 0 = none
    ∧ ("jon jones" : String) ≠ "" :=
  ⟨by decide,
   C10_no_empty_string [fun _ _ => 100] "jon jones" ["jon jones"] 70 "jon jones"
     (by decide)⟩

/-! ## Claim C8: token-overlap secondary-market resolution -/

/-- `foldl_keep_first_max` from the initial accumulator `(0, default)`,
projected to the payload: the scan returns the payload of the first
maximal-score element when the maximum is nonzero, else the default. -/
theorem foldl_keep_first_max_snd {α β : Type} (score : α → Nat) (out : α → β)
    (l : List α) (d : β) :
    (l.foldl (fun a r => if score r > a.1 then (score r, out r) else a)
      ((0 : Nat), d)).2 =
      (let M := l.foldl (fun m r => max m (score r)) 0
       if M = 0 then d
       else ((l.filter fun r => decide (score r = M)).head?).elim d
         (fun r => out r)) := by
  have h := foldl_keep_first_max score out l ((0 : Nat), d)
  simp only [Nat.le_zero] at h
  rw [h]
  by_cases hM : l.foldl (fun m r => max m (score r)) 0 = 0
  · rw [if_pos hM, if_pos hM]
  · rw [if_neg hM, if_neg hM]
    cases (l.filter fun r =>
        decide (score r = l.foldl (fun m r => max m (score r)) 0)).head? with
    | none => rfl
    | some r => rfl

/-- C8 amended: `map_distance_odds` returns the `odds` cell of the FIRST
fight row attaining the maximal token-set intersection whenever that maximum
is nonzero (so a single shared token suffices to pick a fight, and ties on
intersection size keep the first row encountered); consequently it returns
no odds exactly when every row's intersection is zero OR the selected row's
own odds cell is absent (the counterexample shows the second case is
real). -/
theorem C8_overlap_first_max (fighter_name : Option String)
    (distance_df : List DKRow) (name_cleaner : Option String → String) :
    map_distance_odds fighter_name distance_df name_cleaner =
      (let fighter_parts := (pySplit (name_cleaner fighter_name)).toFinset
       let M := distance_df.foldl
         (fun m r => max m (distance_score fighter_parts name_cleaner r)) 0
       if M = 0 then none
       else ((distance_df.filter fun r =>
           decide (distance_score fighter_parts name_cleaner r = M)).head?).elim
         none (fun r => r.odds)) :=
  foldl_keep_first_max_snd
    (distance_score ((pySplit (name_cleaner fighter_name)).toFinset) name_cleaner)
    (fun r : DKRow => r.odds) distance_df none


/-- C8 counterexample to "returns no odds exactly when every fight row has
intersection size zero": against a single row sharing two tokens with the
subject but carrying no odds cell, the function returns no odds although the
intersection is 2, not 0. -/
theorem C8_absent_odds_cex :
    map_distance_odds (some "jon jones") [c8row] cleanOpt = none
    ∧ ((pySplit (cleanOpt (some "jon jones"))).toFinset
        ∩ (pySplit (cleanOpt c8row.fight)).toFinset).card = 2 := by decide

/-! ## Claim C6: one row per normalized source-B subject -/

/-- Every row the left join produces for a PrizePicks row carries that row's
normalized name as its `fighter_clean_x`, and is built from that row. -/
theorem mem_join_rows (scorers : List (String → String → Nat))
    (df_strikes df_distance_data : List DKRow) (p : PPRow) (q : MergedRow)
    (hq : q ∈ join_rows scorers df_strikes df_distance_data p) :
    q.pp = p ∧ q.fighter_clean_x = cleanOpt p.Player := by
  simp only [join_rows] at hq
  split at hq
  · rcases List.mem_singleton.mp hq with rfl
    exact ⟨rfl, rfl⟩
  · rcases List.mem_map.mp hq with ⟨d, -, rfl⟩
    exact ⟨rfl, rfl⟩

/-- The left join never drops a PrizePicks row: at least one merged row is
produced for it. -/
theorem join_rows_ne_nil (scorers : List (String → String → Nat))
    (df_strikes df_distance_data : List DKRow) (p : PPRow) :
    join_rows scorers df_strikes df_distance_data p ≠ [] := by
  simp only [join_rows]
  split
  · simp
  · next h =>
    intro hmap
    exact h (by simpa [List.isEmpty_iff, List.map_eq_nil_iff] using hmap)

/-- Rows of the joined relation carry the normalized name of their own
PrizePicks row. -/
theorem joined_key_eq (scorers : List (String → String → Nat))
    (df_strikes df_distance_data : List DKRow) (df_pp : List PPRow)
    (r : MergedRow)
    (hr : r ∈ joined scorers df_strikes df_distance_data df_pp) :
    r.fighter_clean_x = cleanOpt r.pp.Player := by
  rcases List.mem_flatMap.mp hr with ⟨p, -, hj⟩
  rcases mem_join_rows scorers df_strikes df_distance_data p r hj with ⟨hpp, hkey⟩
  rw [hkey, hpp]

/-- C6: the post-join dedup keys on the normalized source-B subject name:
(i) the deduplicated relation has pairwise-distinct `fighter_clean_x` keys;
(ii) each surviving row is the FIRST row of the joined relation bearing its
key; (iii) every source-B row still has a representative — so two source-B
rows normalizing to the same name share exactly one surviving row; and
(iv) the final output relation has at most one row per distinct normalized
source-B subject name (the later sort and line-filter only permute or drop
rows). -/
theorem C6_dedup_by_source_b_name (scorers : List (String → String → Nat))
    (df_strikes df_distance_data : List DKRow) (df_pp : List PPRow) :
    (merged_dedup scorers df_strikes df_distance_data df_pp).Pairwise
      (fun a b => a.fighter_clean_x ≠ b.fighter_clean_x)
    ∧ (∀ r ∈ merged_dedup scorers df_strikes df_distance_data df_pp,
        ((joined scorers df_strikes df_distance_data df_pp).filter
          (fun a => decide (a.fighter_clean_x = r.fighter_clean_x))).head? =
          some r)
    ∧ (∀ p ∈ df_pp,
        ∃ r ∈ merged_dedup scorers df_strikes df_distance_data df_pp,
          r.fighter_clean_x = cleanOpt p.Player)
    ∧ (merge_ufc_props scorers df_strikes df_distance_data df_pp).rows.Pairwise
      (fun a b => cleanOpt a.fighter ≠ cleanOpt b.fighter) := by
  refine ⟨dropDupBy_pairwise _ _, ?_, ?_, ?_⟩
  · intro r hr
    unfold merged_dedup at hr
    exact dropDupBy_first (fun r => r.fighter_clean_x) _ r hr
  · intro p hp
    have hne := join_rows_ne_nil scorers df_strikes df_distance_data p
    rcases List.exists_mem_of_ne_nil _ hne with ⟨q, hq⟩
    have hkey := (mem_join_rows scorers df_strikes df_distance_data p q hq).2
    have hqj : q ∈ joined scorers df_strikes df_distance_data df_pp :=
      List.mem_flatMap.mpr ⟨p, hp, hq⟩
    unfold merged_dedup
    rcases exists_mem_dropDupBy (fun r => r.fighter_clean_x) _ q hqj with
      ⟨r, hr, hrk⟩
    exact ⟨r, hr, hrk.trans hkey⟩
  · by_cases hempty : df_pp.isEmpty
    · rw [merge_ufc_props, if_pos hempty]
      simp
    · rw [merge_ufc_props, if_neg hempty]
      have hdedup : (merged_dedup scorers df_strikes df_distance_data
          df_pp).Pairwise
          (fun a b => cleanOpt a.pp.Player ≠ cleanOpt b.pp.Player) := by
        unfold merged_dedup
        refine (dropDupBy_pairwise (fun r : MergedRow => r.fighter_clean_x)
          (joined scorers df_strikes df_distance_data df_pp)).imp_of_mem ?_
        intro a b ha hb hne
        have haj : a ∈ joined scorers df_strikes df_distance_data df_pp :=
          (dropDupBy_sublist _ _).mem ha
        have hbj : b ∈ joined scorers df_strikes df_distance_data df_pp :=
          (dropDupBy_sublist _ _).mem hb
        rw [← joined_key_eq scorers df_strikes df_distance_data df_pp a haj,
          ← joined_key_eq scorers df_strikes df_distance_data df_pp b hbj]
        exact hne
      have hsorted : (sorted_merged scorers df_strikes df_distance_data
          df_pp).Pairwise
          (fun a b => cleanOpt a.pp.Player ≠ cleanOpt b.pp.Player) :=
        (List.Perm.pairwise_iff (fun h => Ne.symm h)
          (List.mergeSort_perm _ _)).mpr hdedup
      have hmap : ((sorted_merged scorers df_strikes df_distance_data
          df_pp).map
          (mk_out_row df_strikes df_distance_data)).Pairwise
          (fun a b => cleanOpt a.fighter ≠ cleanOpt b.fighter) :=
        hsorted.map _ (fun a b h => h)
      exact hmap.sublist (List.filter_sublist _)

/-! ## Character-level lemmas about the normalization primitives -/

/-- No lowercase image of the case table is itself a key of the table. -/
theorem lowerTable_snd_not_key :
    ∀ p ∈ lowerTable, lowerTable.find? (fun q => q.1 == p.2) = none := by
  decide

theorem pyLower_pyLower (c : Char) : pyLower (pyLower c) = pyLower c := by
  cases hfind : lowerTable.find? (fun p => p.1 == c) with
  | none =>
    have h1 : pyLower c = c := by rw [pyLower, hfind]
    rw [h1]
    exact h1
  | some p =>
    have h1 : pyLower c = p.2 := by rw [pyLower, hfind]
    have hp : p ∈ lowerTable := List.mem_of_find?_eq_some hfind
    rw [h1, pyLower, lowerTable_snd_not_key p hp]

theorem pyLower_space : pyLower ' ' = ' ' := by decide

/-- `pyReplaceF` leaves a list alone when the pattern occurs nowhere in
it. -/
theorem pyReplaceF_no_occurrence (old new : List Char) :
    ∀ (fuel : Nat) (l : List Char), ¬ old <:+: l →
      pyReplaceF old new fuel l = l := by
  intro fuel
  induction fuel with
  | zero => intro l _; cases l <;> rfl
  | succ fuel ih =>
    intro l hinf
    cases l with
    | nil => rfl
    | cons c rest =>
      rw [pyReplaceF]
      have hpre : old.isPrefixOf (c :: rest) = false := by
        by_contra h
        have : old.isPrefixOf (c :: rest) = true := by
          simpa using h
        exact hinf (List.isPrefixOf_iff_prefix.mp this).isInfix
      rw [hpre]
      simp only [Bool.false_eq_true, if_false]
      rw [ih rest (fun h => hinf (List.infix_cons h))]

theorem pyReplace_no_occurrence (old new : List Char)
    (l : List Char) (hinf : ¬ old <:+: l) : pyReplace old new l = l :=
  pyReplaceF_no_occurrence old new l.length l hinf

/-- Characters of a replacement result come from the input or from the
replacement text. -/
theorem mem_pyReplaceF (old new : List Char) :
    ∀ (fuel : Nat) (l : List Char) (a : Char),
      a ∈ pyReplaceF old new fuel l → a ∈ l ∨ a ∈ new := by
  intro fuel
  induction fuel with
  | zero =>
    intro l a ha
    cases l with
    | nil => simp [pyReplaceF] at ha
    | cons c rest => exact Or.inl ha
  | succ fuel ih =>
    intro l a ha
    cases l with
    | nil => simp [pyReplaceF] at ha
    | cons c rest =>
      rw [pyReplaceF] at ha
      by_cases hpre : old.isPrefixOf (c :: rest) = true
      · rw [if_pos hpre] at ha
        rcases List.mem_append.mp ha with h | h
        · exact Or.inr h
        · rcases ih _ a h with h2 | h2
          · exact Or.inl (List.mem_of_mem_drop h2)
          · exact Or.inr h2
      · rw [if_neg hpre] at ha
        rcases List.mem_cons.mp ha with h | h
        · exact Or.inl (by simp [h])
        · rcases ih rest a h with h2 | h2
          · exact Or.inl (List.mem_cons_of_mem c h2)
          · exact Or.inr h2

theorem mem_pyReplace (old new : List Char) (l : List Char) (a : Char)
    (ha : a ∈ pyReplace old new l) : a ∈ l ∨ a ∈ new :=
  mem_pyReplaceF old new l.length l a ha

/-- Replacing a single character by nothing is a filter. -/
theorem pyReplaceF_single_del (c : Char) :
    ∀ (fuel : Nat) (l : List Char), l.length ≤ fuel →
      pyReplaceF [c] [] fuel l = l.filter (fun x => !(x == c)) := by
  intro fuel
  induction fuel with
  | zero =>
    intro l hl
    have : l = [] := List.length_eq_zero.mp (Nat.le_zero.mp hl)
    subst this; rfl
  | succ fuel ih =>
    intro l hl
    cases l with
    | nil => rfl
    | cons x rest =>
      rw [pyReplaceF]
      by_cases hx : c = x
      · subst hx
        have hpre : [c].isPrefixOf (c :: rest) = true := by simp
        rw [if_pos hpre]
        simp only [List.length_cons] at hl
        have : List.drop ([c] : List Char).length (c :: rest) = rest := by simp
        rw [this, List.nil_append, ih rest (by omega), List.filter_cons]
        simp
      · have hpre : ([c] : List Char).isPrefixOf (x :: rest) = false := by
          rw [Bool.eq_false_iff]
          intro hcon
          rcases List.isPrefixOf_iff_prefix.mp hcon with ⟨t, ht⟩
          injection ht with h1 _
          exact hx h1
        rw [hpre]
        simp only [Bool.false_eq_true, if_false]
        simp only [List.length_cons] at hl
        rw [ih rest (by omega), List.filter_cons]
        have hxc : (x == c) = false := by
          simp only [beq_eq_false_iff_ne, ne_eq]
          exact fun h => hx h.symm
        simp [hxc]

theorem pyReplace_single_del (c : Char) (l : List Char) :
    pyReplace [c] [] l = l.filter (fun x => !(x == c)) :=
  pyReplaceF_single_del c l.length l (Nat.le_refl _)

/-- Replacing a single character by another single character is a map. -/
theorem pyReplaceF_single_map (c d : Char) :
    ∀ (fuel : Nat) (l : List Char), l.length ≤ fuel →
      pyReplaceF [c] [d] fuel l = l.map (fun x => if x == c then d else x) := by
  intro fuel
  induction fuel with
  | zero =>
    intro l hl
    have : l = [] := List.length_eq_zero.mp (Nat.le_zero.mp hl)
    subst this; rfl
  | succ fuel ih =>
    intro l hl
    cases l with
    | nil => rfl
    | cons x rest =>
      rw [pyReplaceF]
      by_cases hx : c = x
      · subst hx
        have hpre : [c].isPrefixOf (c :: rest) = true := by simp
        rw [if_pos hpre]
        simp only [List.length_cons] at hl
        have : List.drop ([c] : List Char).length (c :: rest) = rest := by simp
        rw [this, ih rest (by omega), List.map_cons]
        simp
      · have hpre : ([c] : List Char).isPrefixOf (x :: rest) = false := by
          rw [Bool.eq_false_iff]
          intro hcon
          rcases List.isPrefixOf_iff_prefix.mp hcon with ⟨t, ht⟩
          injection ht with h1 _
          exact hx h1
        rw [hpre]
        simp only [Bool.false_eq_true, if_false]
        simp only [List.length_cons] at hl
        rw [ih rest (by omega), List.map_cons]
        have hxc : (x == c) = false := by
          simp only [beq_eq_false_iff_ne, ne_eq]
          exact fun h => hx h.symm
        simp [hxc]

theorem pyReplace_single_map (c d : Char) (l : List Char) :
    pyReplace [c] [d] l = l.map (fun x => if x == c then d else x) :=
  pyReplaceF_single_map c d l.length l (Nat.le_refl _)

/-- A single-character pattern is an infix exactly when the character is a
member. -/
theorem singleton_infix_iff (c : Char) (l : List Char) :
    [c] <:+: l ↔ c ∈ l := by
  constructor
  · intro h
    exact h.sublist.subset (by simp)
  · intro h
    rcases List.append_of_mem h with ⟨s, t, rfl⟩
    exact ⟨s, t, by simp⟩

/-! ## Splitting, joining and stripping -/

theorem splitWS_cons (c : Char) (l : List Char) :
    splitWS (c :: l) =
      (if c.isWhitespace then [] :: splitWS l
       else
         match splitWS l with
         | [] => [[c]]
         | w :: ws => (c :: w) :: ws) := rfl

theorem splitWS_ne_nil : ∀ l : List Char, splitWS l ≠ [] := by
  intro l
  induction l with
  | nil => simp [splitWS]
  | cons c rest ih =>
    rw [splitWS_cons]
    by_cases h : c.isWhitespace
    · simp [h]
    · rw [if_neg h]
      cases hrest : splitWS rest with
      | nil => simp
      | cons w ws => simp

/-- Every character of every chunk of `splitWS` is a non-whitespace character
of the input. -/
theorem splitWS_words : ∀ (l : List Char) (w : List Char), w ∈ splitWS l →
    ∀ c ∈ w, c ∈ l ∧ c.isWhitespace = false := by
  intro l
  induction l with
  | nil =>
    intro w hw c hc
    simp [splitWS] at hw
    subst hw
    simp at hc
  | cons x rest ih =>
    intro w hw c hc
    rw [splitWS_cons] at hw
    by_cases hx : x.isWhitespace
    · rw [if_pos hx] at hw
      rcases List.mem_cons.mp hw with h | h
      · subst h; simp at hc
      · have := ih w h c hc
        exact ⟨List.mem_cons_of_mem x this.1, this.2⟩
    · rw [if_neg hx] at hw
      cases hrest : splitWS rest with
      | nil => exact absurd hrest (splitWS_ne_nil rest)
      | cons w0 ws0 =>
        rw [hrest] at hw
        rcases List.mem_cons.mp hw with h | h
        · subst h
          rcases List.mem_cons.mp hc with h2 | h2
          · subst h2
            exact ⟨by simp, by simpa using hx⟩
          · have := ih w0 (by rw [hrest]; simp) c h2
            exact ⟨List.mem_cons_of_mem x this.1, this.2⟩
        · have := ih w (by rw [hrest]; exact List.mem_cons_of_mem w0 h) c hc
          exact ⟨List.mem_cons_of_mem x this.1, this.2⟩

/-- Prepending a whitespace-free chunk extends the first chunk of the
split. -/
theorem splitWS_append_word : ∀ (w l : List Char),
    (∀ c ∈ w, c.isWhitespace = false) →
    splitWS (w ++ l) = (splitWS l).modifyHead (fun h => w ++ h) := by
  intro w
  induction w with
  | nil =>
    intro l _
    cases hl : splitWS l with
    | nil => exact absurd hl (splitWS_ne_nil l)
    | cons h t => simp [hl]
  | cons a w ih =>
    intro l hws
    have ha : a.isWhitespace = false := hws a (by simp)
    rw [List.cons_append, splitWS_cons, if_neg (by simp [ha])]
    rw [ih l (fun c hc => hws c (List.mem_cons_of_mem a hc))]
    cases hl : splitWS l with
    | nil => exact absurd hl (splitWS_ne_nil l)
    | cons h t => simp

theorem splitWS_ws_cons (c : Char) (l : List Char)
    (hc : c.isWhitespace = true) : splitWS (c :: l) = [] :: splitWS l := by
  rw [splitWS_cons, if_pos hc]

/-- A whitespace-free chunk splits to itself. -/
theorem splitWS_single (w : List Char) (hws : ∀ c ∈ w, c.isWhitespace = false) :
    splitWS w = [w] := by
  have := splitWS_append_word w [] hws
  simpa [splitWS] using this

theorem joinChars_cons₂ (w x : List Char) (rest : List (List Char)) :
    joinChars (w :: x :: rest) = w ++ ' ' :: joinChars (x :: rest) := rfl

/-- Splitting a join of whitespace-free words recovers the words. -/
theorem splitWS_joinChars : ∀ (ws : List (List Char)),
    (∀ w ∈ ws, ∀ c ∈ w, c.isWhitespace = false) →
    splitWS (joinChars ws) = (if ws = [] then [[]] else ws) := by
  intro ws
  induction ws with
  | nil => intro _; simp [joinChars, splitWS]
  | cons w rest ih =>
    intro hws
    cases rest with
    | nil =>
      rw [if_neg (by simp)]
      exact splitWS_single w (hws w (by simp))
    | cons x rest2 =>
      rw [joinChars_cons₂, if_neg (by simp)]
      rw [splitWS_append_word w _ (hws w (by simp))]
      rw [splitWS_ws_cons ' ' _ (by decide)]
      rw [ih (fun u hu c hc => hws u (List.mem_cons_of_mem w hu) c hc)]
      rw [if_neg (by simp)]
      simp

/-- Chunks of `pySplitChars` are nonempty, whitespace-free, and made of input
characters. -/
theorem pySplitChars_words (l : List Char) (w : List Char)
    (hw : w ∈ pySplitChars l) :
    w ≠ [] ∧ ∀ c ∈ w, c ∈ l ∧ c.isWhitespace = false := by
  rcases List.mem_filter.mp hw with ⟨hmem, hne⟩
  refine ⟨by simpa [List.isEmpty_iff] using hne, ?_⟩
  intro c hc
  exact splitWS_words l w hmem c hc

/-- Splitting the join of the nonempty whitespace-free words gives the words
back. -/
theorem pySplitChars_joinChars (ws : List (List Char))
    (h : ∀ w ∈ ws, w ≠ [] ∧ ∀ c ∈ w, c.isWhitespace = false) :
    pySplitChars (joinChars ws) = ws := by
  rw [pySplitChars, splitWS_joinChars ws (fun w hw => (h w hw).2)]
  by_cases hws : ws = []
  · subst hws; simp
  · rw [if_neg hws]
    rw [List.filter_eq_self.mpr]
    intro w hw
    simpa [List.isEmpty_iff] using (h w hw).1

theorem joinChars_ne_nil : ∀ (ws : List (List Char)), ws ≠ [] →
    (∀ w ∈ ws, w ≠ []) → joinChars ws ≠ [] := by
  intro ws
  induction ws with
  | nil => intro h; exact absurd rfl h
  | cons w rest ih =>
    intro _ hall
    cases rest with
    | nil =>
      simpa [joinChars] using hall w (by simp)
    | cons x rest2 =>
      rw [joinChars_cons₂]
      intro hcontra
      rcases List.append_eq_nil.mp hcontra with ⟨-, h2⟩
      simp at h2

/-- The last character of a join of nonempty words is the last character of
one of the words. -/
theorem joinChars_getLast? : ∀ (ws : List (List Char)), ws ≠ [] →
    (∀ w ∈ ws, w ≠ []) →
    ∃ w ∈ ws, (joinChars ws).getLast? = w.getLast? := by
  intro ws
  induction ws with
  | nil => intro h; exact absurd rfl h
  | cons w rest ih =>
    intro _ hall
    cases rest with
    | nil => exact ⟨w, by simp, rfl⟩
    | cons x rest2 =>
      rw [joinChars_cons₂]
      have hne : joinChars (x :: rest2) ≠ [] :=
        joinChars_ne_nil (x :: rest2) (by simp)
          (fun u hu => hall u (List.mem_cons_of_mem w hu))
      have htail : (' ' :: joinChars (x :: rest2)) ≠ [] := by simp
      rw [List.getLast?_append_of_ne_nil _ htail]
      rcases ih (by simp) (fun u hu => hall u (List.mem_cons_of_mem w hu)) with
        ⟨u, hu, heq⟩
      refine ⟨u, List.mem_cons_of_mem w hu, ?_⟩
      cases hj : joinChars (x :: rest2) with
      | nil => exact absurd hj hne
      | cons y t =>
        rw [List.getLast?_cons_cons, ← hj, heq]

/-- The first character of a join whose first word is nonempty is that word's
first character. -/
theorem joinChars_head? (w : List Char) (rest : List (List Char))
    (hw : w ≠ []) : (joinChars (w :: rest)).head? = w.head? := by
  cases rest with
  | nil => rfl
  | cons x rest2 =>
    rw [joinChars_cons₂]
    cases w with
    | nil => exact absurd rfl hw
    | cons a t => rfl

theorem dropWhile_eq_self_of_head {p : Char → Bool} {l : List Char}
    (h : ∀ c, l.head? = some c → p c = false) : l.dropWhile p = l := by
  cases l with
  | nil => rfl
  | cons c t =>
    rw [List.dropWhile_cons, h c rfl]
    simp

/-- `strip` leaves a list alone when neither end is whitespace. -/
theorem pyStrip_eq_self (l : List Char)
    (h1 : ∀ c, l.head? = some c → c.isWhitespace = false)
    (h2 : ∀ c, l.getLast? = some c → c.isWhitespace = false) :
    pyStrip l = l := by
  rw [pyStrip, dropWhile_eq_self_of_head h1]
  rw [dropWhile_eq_self_of_head (fun c hc => h2 c (by rwa [List.head?_reverse] at hc))]
  exact List.reverse_reverse l

/-- `strip` leaves a join of nonempty whitespace-free words alone. -/
theorem pyStrip_joinChars (ws : List (List Char))
    (h : ∀ w ∈ ws, w ≠ [] ∧ ∀ c ∈ w, c.isWhitespace = false) :
    pyStrip (joinChars ws) = joinChars ws := by
  cases ws with
  | nil => rfl
  | cons w rest =>
    refine pyStrip_eq_self _ ?_ ?_
    · intro c hc
      rw [joinChars_head? w rest (h w (by simp)).1] at hc
      exact ((h w (by simp)).2 c (mem_of_head?_eq hc))
    · intro c hc
      rcases joinChars_getLast? (w :: rest) (by simp) (fun u hu => (h u hu).1) with
        ⟨u, hu, heq⟩
      rw [heq] at hc
      have hcu : c ∈ u := by
        rw [← List.head?_reverse] at hc
        exact List.mem_reverse.mp (mem_of_head?_eq hc)
      exact (h u hu).2 c hcu

/-- Characters of a join are characters of the words or the separating
space. -/
theorem mem_joinChars : ∀ (ws : List (List Char)) (c : Char),
    c ∈ joinChars ws → (∃ w ∈ ws, c ∈ w) ∨ c = ' ' := by
  intro ws
  induction ws with
  | nil => intro c hc; simp [joinChars] at hc
  | cons w rest ih =>
    intro c hc
    cases rest with
    | nil =>
      exact Or.inl ⟨w, by simp, by simpa [joinChars] using hc⟩
    | cons x rest2 =>
      rw [joinChars_cons₂] at hc
      rcases List.mem_append.mp hc with h | h
      · exact Or.inl ⟨w, by simp, h⟩
      · rcases List.mem_cons.mp h with h2 | h2
        · exact Or.inr h2
        · rcases ih c h2 with ⟨u, hu, hcu⟩ | h3
          · exact Or.inl ⟨u, List.mem_cons_of_mem w hu, hcu⟩
          · exact Or.inr h3

/-- Characters survive `strip`. -/
theorem mem_pyStrip (l : List Char) (c : Char) (hc : c ∈ pyStrip l) :
    c ∈ l := by
  rw [pyStrip] at hc
  rw [List.mem_reverse] at hc
  have hsub1 : ((l.dropWhile Char.isWhitespace).reverse.dropWhile
      Char.isWhitespace).Sublist (l.dropWhile Char.isWhitespace).reverse :=
    List.dropWhile_sublist _
  have h1 := hsub1.subset hc
  rw [List.mem_reverse] at h1
  have hsub2 : (l.dropWhile Char.isWhitespace).Sublist l :=
    List.dropWhile_sublist _
  exact hsub2.subset h1

/-! ## Claim C1: idempotence of `clean_name` on stable cleaned names -/

/-- `cleanChars` written as its stage chain. -/
theorem cleanChars_eq (l : List Char) :
    cleanChars l =
      joinChars (pySplitChars (pyStrip
        (pyReplace ".".data [] (pyReplace "-".data " ".data
          (pyReplace "the".data [] (pyReplace "ii".data []
            (pyReplace "iii".data [] (pyReplace "jr".data []
              (pyReplace "jr.".data [] (l.map pyLower)))))))))) := rfl

theorem dot_data : (".".data : List Char) = ['.'] := rfl

theorem dash_data : ("-".data : List Char) = ['-'] := rfl

theorem space_data : (" ".data : List Char) = [' '] := rfl

/-- A character of `cleanChars l` that is not the separator space belongs to
the dot-removal stage `s7`. -/
theorem mem_cleanChars_s7 (l : List Char) (c : Char) (hc : c ∈ cleanChars l) :
    c ∈ pyReplace ".".data [] (pyReplace "-".data " ".data
      (pyReplace "the".data [] (pyReplace "ii".data []
        (pyReplace "iii".data [] (pyReplace "jr".data []
          (pyReplace "jr.".data [] (l.map pyLower))))))) ∨ c = ' ' := by
  rw [cleanChars_eq] at hc
  rcases mem_joinChars _ c hc with ⟨w, hw, hcw⟩ | hsp
  · left
    have := (pySplitChars_words _ w hw).2 c hcw
    exact mem_pyStrip _ c this.1
  · right; exact hsp

/-- Every character of `cleanChars l` is a lowercase image of the input or
the separator space. -/
theorem mem_cleanChars (l : List Char) (c : Char) (hc : c ∈ cleanChars l) :
    c ∈ l.map pyLower ∨ c = ' ' := by
  rcases mem_cleanChars_s7 l c hc with h7 | hsp
  · rcases mem_pyReplace _ _ _ c h7 with h6 | hnew
    · rw [dash_data, space_data, pyReplace_single_map] at h6
      rcases List.mem_map.mp h6 with ⟨x, hx5, hxc⟩
      by_cases hdx : (x == '-') = true
      · rw [if_pos hdx] at hxc
        exact Or.inr hxc.symm
      · rw [if_neg (by simpa using hdx)] at hxc
        subst hxc
        rcases mem_pyReplace _ _ _ x hx5 with h4 | hn
        · rcases mem_pyReplace _ _ _ x h4 with h3 | hn
          · rcases mem_pyReplace _ _ _ x h3 with h2 | hn
            · rcases mem_pyReplace _ _ _ x h2 with h1 | hn
              · rcases mem_pyReplace _ _ _ x h1 with h0 | hn
                · exact Or.inl h0
                · simp at hn
              · simp at hn
            · simp at hn
          · simp at hn
        · simp at hn
    · simp at hnew
  · exact Or.inr hsp

/-- `cleanChars` output never contains a period. -/
theorem cleanChars_no_dot (l : List Char) (c : Char) (hc : c ∈ cleanChars l) :
    c ≠ '.' := by
  rcases mem_cleanChars_s7 l c hc with h7 | hsp
  · rw [dot_data, pyReplace_single_del] at h7
    have := (List.mem_filter.mp h7).2
    simpa using this
  · subst hsp; decide

/-- `cleanChars` output never contains a hyphen. -/
theorem cleanChars_no_dash (l : List Char) (c : Char) (hc : c ∈ cleanChars l) :
    c ≠ '-' := by
  rcases mem_cleanChars_s7 l c hc with h7 | hsp
  · rw [dot_data, pyReplace_single_del] at h7
    have h6 := (List.mem_filter.mp h7).1
    rw [dash_data, space_data, pyReplace_single_map] at h6
    rcases List.mem_map.mp h6 with ⟨x, -, hxc⟩
    by_cases hdx : (x == '-') = true
    · rw [if_pos hdx] at hxc
      subst hxc; decide
    · rw [if_neg (by simpa using hdx)] at hxc
      subst hxc
      simpa using hdx
  · subst hsp; decide

/-- A second lowercase pass leaves `cleanChars` output unchanged. -/
theorem cleanChars_lower_fixed (l : List Char) :
    (cleanChars l).map pyLower = cleanChars l := by
  have h : ∀ c ∈ cleanChars l, pyLower c = c := by
    intro c hc
    rcases mem_cleanChars l c hc with hmap | hsp
    · rcases List.mem_map.mp hmap with ⟨a, -, rfl⟩
      exact pyLower_pyLower a
    · subst hsp; exact pyLower_space
  calc (cleanChars l).map pyLower = (cleanChars l).map id :=
        List.map_congr_left h
  _ = cleanChars l := List.map_id _

/-- `strip` leaves `cleanChars` output unchanged. -/
theorem pyStrip_cleanChars (l : List Char) :
    pyStrip (cleanChars l) = cleanChars l := by
  rw [cleanChars_eq]
  exact pyStrip_joinChars _ (fun w hw =>
    ⟨(pySplitChars_words _ w hw).1,
     fun c hc => ((pySplitChars_words _ w hw).2 c hc).2⟩)

/-- Re-splitting and re-joining `cleanChars` output is the identity. -/
theorem joinChars_pySplitChars_cleanChars (l : List Char) :
    joinChars (pySplitChars (cleanChars l)) = cleanChars l := by
  conv_lhs => rw [cleanChars_eq]
  rw [pySplitChars_joinChars _ (fun w hw =>
    ⟨(pySplitChars_words _ w hw).1,
     fun c hc => ((pySplitChars_words _ w hw).2 c hc).2⟩)]
  rw [← cleanChars_eq]


theorem containsSub_false_iff (s pat : String) :
    containsSub s pat = false ↔ ¬ pat.data <:+: s.data := by
  rw [containsSub, Bool.eq_false_iff, Ne, List.any_eq_true]
  constructor
  · intro h hinf
    rcases List.infix_iff_prefix_suffix.mp hinf with ⟨t, hpre, hsuf⟩
    exact h ⟨t, (List.mem_tails _ _).mpr hsuf,
      List.isPrefixOf_iff_prefix.mpr hpre⟩
  · intro h hex
    rcases hex with ⟨t, ht, hp⟩
    exact h (List.infix_iff_prefix_suffix.mpr
      ⟨t, List.isPrefixOf_iff_prefix.mp hp, (List.mem_tails _ _).mp ht⟩)

/-- C1 amended: `clean_name` is idempotent on every input whose CLEANED form
contains none of the removable substrings `"jr"`, `"ii"`, `"the"` (cleaned
forms never contain `"."` or `"-"`, and `"jr."`/`"iii"` contain `"jr"`/`"ii"`,
so these three conditions silence every replacement of a second pass).  The
counterexample shows idempotence fails without this restriction. -/
theorem C1_idempotent_on_clean_names (x : String)
    (hjr : containsSub (clean_name x) "jr" = false)
    (hii : containsSub (clean_name x) "ii" = false)
    (hthe : containsSub (clean_name x) "the" = false) :
    clean_name (clean_name x) = clean_name x := by
  rw [containsSub_false_iff] at hjr hii hthe
  set y := clean_name x with hy
  have hydata : y.data = cleanChars x.data := by rw [hy, clean_name]
  have hjrdot : ¬ ("jr.".data : List Char) <:+: y.data := by
    intro h
    exact hjr (List.IsInfix.trans
      (show ("jr".data : List Char) <:+: "jr.".data from ⟨[], ['.'], rfl⟩) h)
  have hiii : ¬ ("iii".data : List Char) <:+: y.data := by
    intro h
    exact hii (List.IsInfix.trans
      (show ("ii".data : List Char) <:+: "iii".data from ⟨[], ['i'], rfl⟩) h)
  have hdot : ¬ (".".data : List Char) <:+: y.data := by
    rw [dot_data, singleton_infix_iff]
    intro h
    exact cleanChars_no_dot x.data '.' (hydata ▸ h) rfl
  have hdash : ¬ ("-".data : List Char) <:+: y.data := by
    rw [dash_data, singleton_infix_iff]
    intro h
    exact cleanChars_no_dash x.data '-' (hydata ▸ h) rfl
  have hfix : cleanChars y.data = y.data := by
    rw [cleanChars_eq]
    rw [hydata, cleanChars_lower_fixed, ← hydata]
    rw [pyReplace_no_occurrence _ _ _ hjrdot]
    rw [pyReplace_no_occurrence _ _ _ hjr]
    rw [pyReplace_no_occurrence _ _ _ hiii]
    rw [pyReplace_no_occurrence _ _ _ hii]
    rw [pyReplace_no_occurrence _ _ _ hthe]
    rw [pyReplace_no_occurrence _ _ _ hdash]
    rw [pyReplace_no_occurrence _ _ _ hdot]
    rw [hydata, pyStrip_cleanChars, joinChars_pySplitChars_cleanChars]
  rw [clean_name, hfix]

/-- C1 witness: `"Jon Jones Jr."` cleans to `"jon jones"`, which avoids the
removable substrings, and the theorem makes cleaning idempotent there. -/
theorem C1_idempotent_witness :
    clean_name (clean_name "Jon Jones Jr.") = clean_name "Jon Jones Jr." :=
  C1_idempotent_on_clean_names "Jon Jones Jr." (by decide) (by decide)
    (by decide)

/-! ## Claim C2: the exact `clean_name` pipeline -/


/-- C2 amended: `clean_name` lowercases, removes the suffix substrings in
source order, replaces hyphens with spaces, DELETES periods (instead of
replacing them with spaces), strips, and collapses whitespace; consequently
`"a.b"` normalizes to the single token `"ab"`, not to two tokens. -/
theorem C2_clean_name_pipeline :
    (∀ s : String, clean_name s = clean_name_spec s)
    ∧ clean_name "a.b" = "ab" ∧ pySplit (clean_name "a.b") = ["ab"] := by
  refine ⟨?_, by decide, by decide⟩
  intro s
  rw [clean_name, clean_name_spec, cleanChars_eq]
  rw [dash_data, space_data, pyReplace_single_map, dot_data,
    pyReplace_single_del]

/-! ## Claim C3: the nickname table keeps only the last duplicate binding -/

/-- Tokens produced by `pySplit` are nonempty and whitespace-free. -/
theorem pySplit_tokens (s : String) (t : String) (ht : t ∈ pySplit s) :
    t.data ≠ [] ∧ ∀ c ∈ t.data, c.isWhitespace = false := by
  rcases List.mem_map.mp ht with ⟨w, hw, rfl⟩
  have h := pySplitChars_words s.data w hw
  exact ⟨h.1, fun c hc => (h.2 c hc).2⟩

/-- The first token of `w ++ " " ++ x` is `w` when `w` is a nonempty
whitespace-free token. -/
theorem pySplit_head_append (w x : String) (hw : w.data ≠ [])
    (hws : ∀ c ∈ w.data, c.isWhitespace = false) :
    (pySplit (w ++ " " ++ x)).head? = some w := by
  have hdata : (w ++ " " ++ x).data = w.data ++ (' ' :: x.data) := by
    show (w.data ++ " ".data) ++ x.data = w.data ++ (' ' :: x.data)
    rw [space_data, List.append_assoc]
    rfl
  rw [pySplit, pySplitChars, hdata, splitWS_append_word w.data _ hws]
  rw [splitWS_ws_cons ' ' _ (by decide)]
  rw [List.modifyHead_cons, List.append_nil, List.filter_cons]
  rw [if_pos (by simpa [List.isEmpty_iff] using hw)]
  rfl

/-- A single nonempty whitespace-free token splits to itself. -/
theorem pySplit_single (w : String) (hw : w.data ≠ [])
    (hws : ∀ c ∈ w.data, c.isWhitespace = false) :
    pySplit w = [w] := by
  rw [pySplit, pySplitChars, splitWS_single w.data hws, List.filter_cons]
  rw [if_pos (by simpa [List.isEmpty_iff] using hw)]
  rfl

/-- The first token of `' '.join(w :: ts)` is `w` for nonempty
whitespace-free tokens. -/
theorem joinStr_head (w : String) (ts : List String) (hw : w.data ≠ [])
    (hws : ∀ c ∈ w.data, c.isWhitespace = false)
    (hts : ∀ t ∈ ts, t.data ≠ [] ∧ ∀ c ∈ t.data, c.isWhitespace = false) :
    (pySplit (joinStr (w :: ts))).head? = some w := by
  have hprops : ∀ u ∈ (w.data :: ts.map String.data),
      u ≠ [] ∧ ∀ c ∈ u, c.isWhitespace = false := by
    intro u hu
    rcases List.mem_cons.mp hu with h | h
    · subst h; exact ⟨hw, hws⟩
    · rcases List.mem_map.mp h with ⟨t, ht, rfl⟩
      exact hts t ht
  show ((pySplitChars (joinChars (w.data :: ts.map String.data))).map
    (fun u => (⟨u⟩ : String))).head? = some w
  rw [pySplitChars_joinChars _ hprops]
  rfl

/-- The last element with default of a nonempty list is a member. -/
theorem getLastD_mem {α : Type} : ∀ (l : List α) (d : α), l ≠ [] →
    l.getLastD d ∈ l := by
  intro l
  induction l with
  | nil => intro d h; exact absurd rfl h
  | cons a rest ih =>
    intro d _
    cases rest with
    | nil => simp
    | cons b rest2 =>
      have := ih a (by simp)
      simpa using Or.inr this

/-- Identity-keyed dedup keeps exactly the members. -/
theorem mem_dropDupBy_id {α : Type} [DecidableEq α] (l : List α) (v : α) :
    v ∈ dropDupBy id l ↔ v ∈ l := by
  constructor
  · intro h
    exact (mem_dropDupByGo id l [] v h).1
  · intro h
    rcases exists_mem_dropDupBy id l v h with ⟨r, hr, hid⟩
    have : r = v := hid
    exact this ▸ hr

/-- When the dict lookup of the first token `big` yields `nick` — the dict
literal's LAST binding for `big` — the variant list contains a `nick`-headed
variant and none headed by the overwritten earlier nickname `small` (with
`small` at most 4 characters, so the last-name-only variant cannot collide
with it). -/
theorem nickname_last_binding (name big nick small : String)
    (hlook : dictGet nickname_map big = some nick)
    (hnick1 : nick.data ≠ [])
    (hnick2 : ∀ c ∈ nick.data, c.isWhitespace = false)
    (hnick_ne : nick ≠ small) (hbig_ne : big ≠ small)
    (hsmall : small.length ≤ 4)
    (hb : (pySplit (clean_name name)).head? = some big) :
    (∃ v ∈ get_name_variants name, (pySplit v).head? = some nick)
    ∧ ∀ v ∈ get_name_variants name, (pySplit v).head? ≠ some small := by
  cases hparts : pySplit (clean_name name) with
  | nil => rw [hparts] at hb; simp at hb
  | cons first rest =>
    rw [hparts] at hb
    simp only [List.head?_cons, Option.some.injEq] at hb
    subst hb
    have hbigmem : first ∈ pySplit (clean_name name) := by rw [hparts]; simp
    have hbigtok := pySplit_tokens (clean_name name) first hbigmem
    have hresttok : ∀ t ∈ rest,
        t.data ≠ [] ∧ ∀ c ∈ t.data, c.isWhitespace = false := by
      intro t ht
      exact pySplit_tokens (clean_name name) t
        (by rw [hparts]; exact List.mem_cons_of_mem first ht)
    have hjoinhead : (pySplit (joinStr (nick :: rest))).head? = some nick :=
      joinStr_head nick rest hnick1 hnick2 hresttok
    have hlast : rest ≠ [] →
        (first :: rest).getLastD "" ∈ pySplit (clean_name name) := by
      intro hne
      rw [hparts]
      exact getLastD_mem (first :: rest) "" (by simp)
    have hcleanhead : (pySplit (clean_name name)).head? = some first := by
      rw [hparts]; rfl
    have hvt : variant_tail name =
        (if (first :: rest).length ≥ 2 then
          [first ++ " " ++ (first :: rest).getLastD ""]
            ++ (if ((first :: rest).getLastD "").length > 4 then
                  [(first :: rest).getLastD ""] else [])
         else [])
        ++ ([joinStr (nick :: rest)]
            ++ (if (first :: rest).length ≥ 2 then
                  [nick ++ " " ++ (first :: rest).getLastD ""] else [])) := by
      simp only [variant_tail]
      rw [hparts, List.getD_cons_zero, hlook]
      rw [if_pos (by simp : (first :: rest).length ≥ 1)]
      simp
    have hraw : raw_variants name = clean_name name :: variant_tail name := rfl
    constructor
    · refine ⟨joinStr (nick :: rest), ?_, hjoinhead⟩
      rw [get_name_variants, mem_dropDupBy_id, hraw, hvt]
      refine List.mem_cons_of_mem _ ?_
      exact List.mem_append_right _ (by simp)
    · intro v hv
      rw [get_name_variants, mem_dropDupBy_id, hraw, hvt] at hv
      have hlastne : ∀ h : rest ≠ [],
          ((first :: rest).getLastD "").length > 4 →
          (first :: rest).getLastD "" ≠ small := by
        intro hne hlen heq
        rw [heq] at hlen
        omega
      have hfirsthead : ∀ t : String, (pySplit (first ++ " " ++ t)).head? =
          some first :=
        fun t => pySplit_head_append first t hbigtok.1 hbigtok.2
      have hnickhead : ∀ t : String, (pySplit (nick ++ " " ++ t)).head? =
          some nick :=
        fun t => pySplit_head_append nick t hnick1 hnick2
      rcases List.mem_cons.mp hv with hv | hv
      · subst hv
        rw [hcleanhead]
        intro hcon
        exact hbig_ne (by simpa using hcon)
      rcases List.mem_append.mp hv with hv | hv
      · by_cases hlen2 : (first :: rest).length ≥ 2
        · rw [if_pos hlen2] at hv
          have hrestne : rest ≠ [] := by
            intro h; subst h; simp at hlen2
          rcases List.mem_cons.mp hv with hv | hv
          · subst hv
            rw [hfirsthead]
            intro hcon
            exact hbig_ne (by simpa using hcon)
          · by_cases hlen4 : ((first :: rest).getLastD "").length > 4
            · rw [if_pos hlen4] at hv
              rcases List.mem_singleton.mp hv with rfl
              have htok := pySplit_tokens (clean_name name) _ (hlast hrestne)
              rw [pySplit_single _ htok.1 htok.2]
              intro hcon
              exact hlastne hrestne hlen4 (by simpa using hcon)
            · rw [if_neg hlen4] at hv
              simp at hv
        · rw [if_neg hlen2] at hv
          simp at hv
      rcases List.mem_cons.mp hv with hv | hv
      · subst hv
        rw [hjoinhead]
        intro hcon
        exact hnick_ne (by simpa using hcon)
      · by_cases hlen2 : (first :: rest).length ≥ 2
        · rw [if_pos hlen2] at hv
          rcases List.mem_singleton.mp hv with rfl
          rw [hnickhead]
          intro hcon
          exact hnick_ne (by simpa using hcon)
        · rw [if_neg hlen2] at hv
          simp at hv

/-- C3 amended: Python keeps the LAST binding of a duplicated dict key, so
the table maps william only to billy, robert only to bobby and james only to
jimmy: a normalized name whose first token is william gets a variant with
first token billy and none with first token will, and likewise for
robert/bobby (never rob) and james/jimmy (never jim).  (The reverse
directions will→william, rob→robert, jim→james survive as separate keys.) -/
theorem C3_last_binding_wins (name : String) :
    ((pySplit (clean_name name)).head? = some "william" →
      (∃ v ∈ get_name_variants name, (pySplit v).head? = some "billy")
      ∧ ∀ v ∈ get_name_variants name, (pySplit v).head? ≠ some "will")
    ∧ ((pySplit (clean_name name)).head? = some "robert" →
      (∃ v ∈ get_name_variants name, (pySplit v).head? = some "bobby")
      ∧ ∀ v ∈ get_name_variants name, (pySplit v).head? ≠ some "rob")
    ∧ ((pySplit (clean_name name)).head? = some "james" →
      (∃ v ∈ get_name_variants name, (pySplit v).head? = some "jimmy")
      ∧ ∀ v ∈ get_name_variants name, (pySplit v).head? ≠ some "jim") := by
  refine ⟨fun hb => ?_, fun hb => ?_, fun hb => ?_⟩
  · exact nickname_last_binding name "william" "billy" "will" (by decide)
      (by decide) (by decide) (by decide) (by decide) (by decide) hb
  · exact nickname_last_binding name "robert" "bobby" "rob" (by decide)
      (by decide) (by decide) (by decide) (by decide) (by decide) hb
  · exact nickname_last_binding name "james" "jimmy" "jim" (by decide)
      (by decide) (by decide) (by decide) (by decide) (by decide) hb

/-- C3 witness: instantiated at the concrete normalized name
`"william smith"`. -/
theorem C3_last_binding_witness :
    (∃ v ∈ get_name_variants "william smith",
      (pySplit v).head? = some "billy")
    ∧ ∀ v ∈ get_name_variants "william smith",
      (pySplit v).head? ≠ some "will" :=
  (C3_last_binding_wins "william smith").1 (by decide)

end MMA
